import Mathlib

/-!
# Verification of Typo.js (hunspell-style spell checker, enhanced with a
pre-calculated paged backend)

Shallow embedding of `typo.js`.  Modelling conventions:

* JavaScript strings are lists of UTF-16 code units (`JsStr := List Nat`);
  string indexing, slicing, comparison (`<`, `>`) and `charCodeAt` are the
  corresponding list operations on code units.
* `toUpperCase` / `toLowerCase` are modelled by the ASCII case maps (the
  inputs appearing in this development are ASCII).
* Plain JS objects used as dictionaries (`dictionaryTable`, `memoized`,
  edit-count hashes, partition maps) are modelled as association lists in
  insertion order with unique keys; artefacts of the JS prototype chain
  (inherited keys such as `toString`) are outside the model.
* `String.prototype.localeCompare` is modelled by code-unit comparison.
* The compiled compound-rule regular expressions (`^(w1|w2|...)c...$`, flag
  `i`) are modelled as token lists: one alternation group per recognised rule
  code and one literal character otherwise, matched anchored and
  case-insensitively.  This captures the compiled patterns exactly as long as
  the dictionary words and literal characters carry no further regex
  metacharacters.
* 32-bit JS integer arithmetic in the bloom-filter hash is modelled with
  `Nat` and explicit `% 2^32`; `((hash << 5) + hash) + c >>> 0` equals
  `(33*hash + c) % 2^32` on the reachable values.
* Thrown JS errors are modelled with `Except`: `Except Unit` for a
  `TypeError` raised inside a query body, and `JsErr` for the public entry
  points which may also throw "Dictionary not loaded.".
-/

deriving instance DecidableEq for Except

namespace TypoJs

/-- JavaScript string: list of UTF-16 code units. -/
abbrev JsStr := List Nat

/-- ASCII `toLowerCase` on one code unit. -/
def toLowerCode (c : Nat) : Nat := if 65 ≤ c ∧ c ≤ 90 then c + 32 else c

/-- ASCII `toUpperCase` on one code unit. -/
def toUpperCode (c : Nat) : Nat := if 97 ≤ c ∧ c ≤ 122 then c - 32 else c

/-- `s.toLowerCase()`. -/
def jsToLower (s : JsStr) : JsStr := s.map toLowerCode

/-- `s.toUpperCase()`. -/
def jsToUpper (s : JsStr) : JsStr := s.map toUpperCode

/-- JS string `<` (UTF-16 code-unit lexicographic order). -/
def jsLt : JsStr → JsStr → Bool
  | [], [] => false
  | [], _ :: _ => true
  | _ :: _, [] => false
  | a :: as, b :: bs => if a < b then true else if b < a then false else jsLt as bs

/-- `compareStrings` from typo.js: `-1` if `a < b`, `1` if `a > b`, else `0`. -/
def compareStrings (a b : JsStr) : Int :=
  if jsLt a b then -1 else if jsLt b a then 1 else 0

/-- Code units matched by the regex class `\s` that occur in this development. -/
def isSpaceCode (c : Nat) : Bool := c = 9 ∨ c = 10 ∨ c = 11 ∨ c = 12 ∨ c = 13 ∨ c = 32

/-- The trimming done by `check`:
`aWord.replace(/^\s\s*/, '').replace(/\s\s*$/, '')`. -/
def jsTrim (s : JsStr) : JsStr :=
  ((s.dropWhile isSpaceCode).reverse.dropWhile isSpaceCode).reverse

/-- The code units of the string `"undefined"` (the result of concatenating
the value `undefined` with a string in JS). -/
def strUndefined : JsStr := [117, 110, 100, 101, 102, 105, 110, 101, 100]

/-- Models the contribution of `s[0]` to a string concatenation: the
one-character string when `s` is nonempty, the string `"undefined"` when
indexing past the end. -/
def jsCharAt0 (s : JsStr) : JsStr :=
  match s with
  | [] => strUndefined
  | c :: _ => [c]

/-- `word.indexOf(sub)`.  Returns the first index at which `sub` occurs, or
`-1` when it does not occur (the empty string occurs at index 0). -/
def jsIndexOf (w sub : JsStr) : Int :=
  match (List.range (w.length + 1)).find? (fun i => sub.isPrefixOf (w.drop i)) with
  | some i => (i : Int)
  | none => -1

/-- `word.replace(pat, rep)` with a plain-string pattern: replaces the first
occurrence of `pat` (no-op when `pat` does not occur). -/
def jsReplaceFirst (w pat rep : JsStr) : JsStr :=
  match (List.range (w.length + 1)).find? (fun i => pat.isPrefixOf (w.drop i)) with
  | some i => w.take i ++ rep ++ w.drop (i + pat.length)
  | none => w

/-- Insert into a sorted list before the first element not `le`-below the
inserted one (the auxiliary step of `jsSort`). -/
def insertSorted {A : Type} (le : A → A → Bool) (a : A) : List A → List A
  | [] => [a]
  | b :: bs => if le a b then a :: b :: bs else b :: insertSorted le a bs

/-- `Array.prototype.sort(cmp)` for a consistent comparator, modelled as a
stable insertion sort ordered by `le a b := cmp(a,b) <= 0`.  For the total,
transitive comparators used in typo.js any stable sort produces this list. -/
def jsSort {A : Type} (le : A → A → Bool) : List A → List A
  | [] => []
  | a :: as => insertSorted le a (jsSort le as)

/-! ## Bloom filter -/

/-- One step of the DJB2-variant hash:
`hash = (((hash << 5) + hash) + charCode) >>> 0`, which on the reachable
values equals `(33 * hash + c) mod 2^32`. -/
def hashStep (h c : Nat) : Nat := (33 * h + c) % (2 ^ 32)

/-- `BloomFilter._hash(str, seed)`: DJB2 variant seeded with
`5381 + seed * 1000`, folded over the UTF-16 code units. -/
def bloomHash (w : JsStr) (seed : Nat) : Nat := w.foldl hashStep (5381 + seed * 1000)

/-- Bloom filter state.  `bits` maps a byte index to the byte value stored
there (the JS `Uint8Array`, all zero initially). -/
structure Bloom where
  size : Nat
  numHashes : Nat
  bits : Nat → Nat

/-- `this.bits[byteIndex] |= (1 << bitOffset)` for bit index `idx`. -/
def setBit (bits : Nat → Nat) (idx : Nat) : Nat → Nat :=
  fun j => if j = idx / 8 then bits j ||| (1 <<< (idx % 8)) else bits j

/-- `(this.bits[byteIndex] & (1 << bitOffset)) !== 0` for bit index `idx`. -/
def bitTest (bits : Nat → Nat) (idx : Nat) : Bool :=
  bits (idx / 8) &&& (1 <<< (idx % 8)) != 0

/-- `new BloomFilter(size, numHashes)`  (`numHashes || 3`, zeroed bit array). -/
def Bloom.mkJs (size numHashes : Nat) : Bloom :=
  ⟨size, if numHashes = 0 then 3 else numHashes, fun _ => 0⟩

/-- `BloomFilter.add(word)`: set the bit `hash(word, i) % size` for every
probe index `i < numHashes`. -/
def Bloom.add (f : Bloom) (w : JsStr) : Bloom :=
  { f with bits := (List.range f.numHashes).foldl (fun b i => setBit b (bloomHash w i % f.size)) f.bits }

/-- `BloomFilter.mightContain(word)`: all probed bits are set. -/
def Bloom.mightContain (f : Bloom) (w : JsStr) : Bool :=
  (List.range f.numHashes).all (fun i => bitTest f.bits (bloomHash w i % f.size))

/-! ## LRU cache (`LRUCache` in typo.js)

The backing `Map` is modelled as an association list in insertion order:
the first entry is the oldest. -/

structure LRU (V : Type) where
  maxSize : Nat
  entries : List (JsStr × V)

/-- `new LRUCache(maxSize)`. -/
def LRU.empty (V : Type) (maxSize : Nat) : LRU V := ⟨maxSize, []⟩

/-- `LRUCache.get(key)`: `null` on a miss; on a hit the entry is deleted and
re-inserted at the end (most recently used) and its value returned. -/
def LRU.get {V : Type} (c : LRU V) (k : JsStr) : Option V × LRU V :=
  match c.entries.find? (fun p => p.1 == k) with
  | none => (none, c)
  | some p => (some p.2, { c with entries := (c.entries.eraseP (fun q => q.1 == k)) ++ [(k, p.2)] })

/-- `LRUCache.set(key, value)`: delete an existing entry for the key, insert
at the end, then evict the oldest entry if the size exceeds `maxSize`. -/
def LRU.set {V : Type} (c : LRU V) (k : JsStr) (v : V) : LRU V :=
  let es := (c.entries.eraseP (fun q => q.1 == k)) ++ [(k, v)]
  { c with entries := if c.maxSize < es.length then es.drop 1 else es }

/-- `LRUCache.has(key)` (does not update the access order). -/
def LRU.has {V : Type} (c : LRU V) (k : JsStr) : Bool :=
  c.entries.any (fun p => p.1 == k)

/-- `LRUCache.add(key)` (Set-like usage, value `true`). -/
def LRU.addKey (c : LRU Bool) (k : JsStr) : LRU Bool := c.set k true

/-! ## Flags and rule codes -/

/-- The flag directives consulted by the lookup and suggestion engines.
A `some` value is the rule code stored in `this.flags[name]`; `none` means
the directive is absent (`name in this.flags` is false).  `COMPOUNDMIN`
is consulted numerically (`word.length >= this.flags.COMPOUNDMIN`) and is
modelled with its numeric value. -/
structure Flags where
  ONLYINCOMPOUND : Option JsStr := none
  KEEPCASE : Option JsStr := none
  NOSUGGEST : Option JsStr := none
  PRIORITYSUGGEST : Option JsStr := none
  COMPOUNDMIN : Option Nat := none
  TRY : Option JsStr := none
  WORDCHARS : Option JsStr := none
deriving DecidableEq

/-- The flag names passed to `hasFlag`. -/
inductive FlagName where
  | ONLYINCOMPOUND
  | KEEPCASE
  | NOSUGGEST
  | PRIORITYSUGGEST
deriving DecidableEq

/-- `this.flags[flag]` for the flag names passed to `hasFlag`. -/
def Flags.get (fl : Flags) : FlagName → Option JsStr
  | .ONLYINCOMPOUND => fl.ONLYINCOMPOUND
  | .KEEPCASE => fl.KEEPCASE
  | .NOSUGGEST => fl.NOSUGGEST
  | .PRIORITYSUGGEST => fl.PRIORITYSUGGEST

/-- `hasFlag(word, flag, wordFlags)` with an explicit `wordFlags` array:
false when the flag directive is absent, otherwise
`wordFlags.indexOf(this.flags[flag]) !== -1`. -/
def hasFlagW (fl : Option JsStr) (wordFlags : List JsStr) : Bool :=
  match fl with
  | none => false
  | some code => wordFlags.any (fun c => c == code)

/-! ## Compound-rule matchers -/

/-- One token of a compiled compound rule: an alternation group over all the
words tagged with a rule code, or a literal character. -/
inductive CTok where
  | grp (ws : List JsStr)
  | lit (c : Nat)
deriving DecidableEq

/-- Case-insensitive prefix test on code-unit lists. -/
def ciPfx (w s : JsStr) : Bool := (w.map toLowerCode).isPrefixOf (s.map toLowerCode)

/-- Anchored, case-insensitive matching of a compiled compound rule
(`new RegExp('^' + ... + '$', "i")`) against a word. -/
def compoundMatch : List CTok → JsStr → Bool
  | [], [] => true
  | [], _ :: _ => false
  | .lit _ :: _, [] => false
  | .lit c :: ts, x :: xs => (toLowerCode c == toLowerCode x) && compoundMatch ts xs
  | .grp ws :: ts, s => ws.any (fun w => ciPfx w s && compoundMatch ts (s.drop w.length))

/-! ## In-memory dictionary state -/

/-- The in-memory `Typo` instance state used by the query operations.  The
`dictionaryTable` maps a word to `none` (JS `null`: registered with no rule
codes) or `some css` (the list of registered rule-code sets); a word absent
from the list is JS `undefined`.  `memoized` maps a word to its stored
suggestions and limit. -/
structure Typo where
  loaded : Bool
  dictionaryTable : List (JsStr × Option (List (List JsStr)))
  compoundRules : List (List CTok)
  flags : Flags
  replacementTable : List (JsStr × JsStr)
  memoized : List (JsStr × (List JsStr × Nat))
  alphabet : JsStr := []
deriving DecidableEq

/-- `this.dictionaryTable[word]`: `none` = JS `undefined`,
`some none` = JS `null`, `some (some css)` = the registered code sets. -/
def dtLookup (dt : List (JsStr × Option (List (List JsStr)))) (w : JsStr) :
    Option (Option (List (List JsStr))) :=
  (dt.find? (fun p => p.1 == w)).map (fun p => p.2)

/-- The `wordFlags` computed by `hasFlag` when none are passed in (in-memory
mode): `Array.prototype.concat.apply([], this.dictionaryTable[word])`, i.e.
the concatenation of the word's code sets ( `[]` for an absent or codeless
word). -/
def wordFlagsMem (t : Typo) (w : JsStr) : List JsStr :=
  match dtLookup t.dictionaryTable w with
  | none => []
  | some none => []
  | some (some css) => css.flatten

/-- `hasFlag(word, flag)` (in-memory mode, body after the loaded check). -/
def hasFlagMem (t : Typo) (fn : FlagName) (w : JsStr) : Bool :=
  hasFlagW (t.flags.get fn) (wordFlagsMem t w)

/-- `checkExact(word)` (traditional in-memory mode, body after the loaded
check): a codeless hit is correct; a hit with code sets is correct iff some
code set lacks the `ONLYINCOMPOUND` code; an unregistered word is correct
iff `COMPOUNDMIN` is configured, the length reaches it, and some compiled
compound rule matches. -/
def checkExactMem (t : Typo) (word : JsStr) : Bool :=
  match dtLookup t.dictionaryTable word with
  | none =>
      match t.flags.COMPOUNDMIN with
      | some m => if m ≤ word.length then t.compoundRules.any (fun r => compoundMatch r word) else false
      | none => false
  | some none => true
  | some (some css) => css.any (fun cs => !(hasFlagW t.flags.ONLYINCOMPOUND cs))

/-- `capitalizedWord` in `check`:
`trimmedWord[0] + trimmedWord.substring(1).toLowerCase()`. -/
def capitalizedWordOf (s : JsStr) : JsStr := jsCharAt0 s ++ jsToLower (s.drop 1)

/-- `uncapitalizedWord` in `check`:
`trimmedWord[0].toLowerCase() + trimmedWord.substring(1)`; indexing an empty
string gives `undefined`, whose `.toLowerCase()` throws a `TypeError`. -/
def uncapitalizedWordOf (s : JsStr) : Except Unit JsStr :=
  match s with
  | [] => .error ()
  | c :: r => .ok (toLowerCode c :: r)

/-- The tail of `check` from the `uncapitalizedWord` computation on: throws
a `TypeError` on an empty trimmed word, otherwise tries the
first-letter-lowered form under the keep-case guard. -/
def checkUncapPart (t : Typo) (trimmed : JsStr) : Except Unit Bool :=
  match uncapitalizedWordOf trimmed with
  | .error e => .error e
  | .ok uncap =>
      if uncap ≠ trimmed then
        if hasFlagMem t .KEEPCASE uncap then .ok false
        else .ok (checkExactMem t uncap)
      else .ok false

/-- `check(aWord)` (body after the loaded check): trims, tries the exact
word, then capitalization variants of an all-upper-case word (the
capitalized variant guarded by `KEEPCASE`), then the first-letter-lowered
variant (also guarded). -/
def checkBody (t : Typo) (aWord : JsStr) : Except Unit Bool :=
  if aWord = [] then .ok false
  else
    let trimmed := jsTrim aWord
    if checkExactMem t trimmed then .ok true
    else if jsToUpper trimmed = trimmed then
      let cap := capitalizedWordOf trimmed
      if hasFlagMem t .KEEPCASE cap then .ok false
      else if checkExactMem t cap then .ok true
      else if checkExactMem t (jsToLower trimmed) then .ok true
      else checkUncapPart t trimmed
    else checkUncapPart t trimmed

/-- Errors thrown by the public query operations. -/
inductive JsErr where
  | notLoaded
  | typeError
deriving DecidableEq

/-- Public `check`: throws "Dictionary not loaded." before Ready. -/
def checkE (t : Typo) (w : JsStr) : Except JsErr Bool :=
  if t.loaded then (checkBody t w).mapError (fun _ => JsErr.typeError)
  else .error .notLoaded

/-- Public `checkExact`: throws "Dictionary not loaded." before Ready. -/
def checkExactE (t : Typo) (w : JsStr) : Except JsErr Bool :=
  if t.loaded then .ok (checkExactMem t w) else .error .notLoaded

/-- Public `hasFlag`: throws "Dictionary not loaded." before Ready. -/
def hasFlagE (t : Typo) (fn : FlagName) (w : JsStr) : Except JsErr Bool :=
  if t.loaded then .ok (hasFlagMem t fn w) else .error .notLoaded

/-! ## Suggestion engine -/

/-- The hard-coded default alphabet
`'abcdefghijklmnopqrstuvwxyzABCDEFGHIJKLMNOPQRSTUVWXYZ'`. -/
def defaultAlphabet : JsStr :=
  (List.range 26).map (fun i => 97 + i) ++ (List.range 26).map (fun i => 65 + i)

/-- Is a one-character string an integer-like JS object key (a digit)? -/
def isDigitCode (c : Nat) : Bool := 48 ≤ c ∧ c ≤ 57

/-- The lazy alphabet construction in `suggest`: default alphabet extended by
the `TRY` and `WORDCHARS` flag values, deduplicated by sorting the characters
and re-reading them from a JS object (whose key order lists integer-like
keys — digits — first, then the remaining keys in sorted insertion order). -/
def buildAlphabet (fl : Flags) : JsStr :=
  let base := defaultAlphabet ++ (fl.TRY.getD []) ++ (fl.WORDCHARS.getD [])
  let sorted := (jsSort (fun a b => decide (a ≤ b)) base).dedup
  sorted.filter isDigitCode ++ sorted.filter (fun c => !isDigitCode c)

/-- Increment the derivation count of an edit in the `rv` hash
(`rv[_edit] = 1` / `rv[_edit] += 1`). -/
def bump (rv : List (JsStr × Nat)) (e : JsStr) : List (JsStr × Nat) :=
  if rv.any (fun p => p.1 == e) then
    rv.map (fun p => if p.1 == e then (p.1, p.2 + 1) else p)
  else rv ++ [(e, 1)]

/-- Record an edit candidate: unconditionally when not `known_only`,
otherwise only when `check` accepts it (which may throw). -/
def maybeBump (t : Typo) (knownOnly : Bool) (rv : List (JsStr × Nat)) (e : JsStr) :
    Except Unit (List (JsStr × Nat)) :=
  if knownOnly then
    match checkBody t e with
    | .error er => .error er
    | .ok b => .ok (if b then bump rv e else rv)
  else .ok (bump rv e)

/-- The replacement-letter loop of the substitution branch of `edits1`:
the replacement letter is upper-cased only when the replaced letter is
upper-case, and replacing a letter by itself is skipped. -/
def replaceLetterLoop (t : Typo) (knownOnly : Bool) (s0 : JsStr) (c : Nat) (rest : JsStr)
    (alpha : JsStr) (rv : List (JsStr × Nat)) : Except Unit (List (JsStr × Nat)) :=
  alpha.foldl
    (fun acc a =>
      match acc with
      | .error er => .error er
      | .ok rv =>
          let rl := if toUpperCode c = c then toUpperCode a else a
          if rl ≠ c then maybeBump t knownOnly rv (s0 ++ rl :: rest) else .ok rv)
    (.ok rv)

/-- The insertion loop of `edits1`: the inserted letter is upper-cased when
`s[0]` (via the `substring(-1)` quirk, the whole left part) is upper-case and
the following character is upper-case. -/
def insertLetterLoop (t : Typo) (knownOnly : Bool) (s0 : JsStr) (c : Nat) (s1 : JsStr)
    (alpha : JsStr) (rv : List (JsStr × Nat)) : Except Unit (List (JsStr × Nat)) :=
  alpha.foldl
    (fun acc a =>
      match acc with
      | .error er => .error er
      | .ok rv =>
          let rl := if jsToUpper s0 = s0 ∧ toUpperCode c = c then toUpperCode a else a
          maybeBump t knownOnly rv (s0 ++ rl :: s1))
    (.ok rv)

/-- One split position of `edits1`: deletion, transposition of distinct
adjacent letters, substitution, insertion — in source order. -/
def edits1At (t : Typo) (knownOnly : Bool) (w : JsStr) (i : Nat)
    (rv : List (JsStr × Nat)) : Except Unit (List (JsStr × Nat)) :=
  let s0 := w.take i
  let s1 := w.drop i
  let step1 :=
    match s1 with
    | [] => Except.ok rv
    | _ :: rest1 => maybeBump t knownOnly rv (s0 ++ rest1)
  match step1 with
  | .error er => .error er
  | .ok rv =>
      let step2 :=
        match s1 with
        | a :: b :: rest2 =>
            if b ≠ a then maybeBump t knownOnly rv (s0 ++ b :: a :: rest2) else Except.ok rv
        | _ => Except.ok rv
      match step2 with
      | .error er => .error er
      | .ok rv =>
          let step3 :=
            match s1 with
            | [] => Except.ok rv
            | c :: rest => replaceLetterLoop t knownOnly s0 c rest t.alphabet rv
          match step3 with
          | .error er => .error er
          | .ok rv =>
              match s1 with
              | [] => Except.ok rv
              | c :: _ => insertLetterLoop t knownOnly s0 c s1 t.alphabet rv

/-- `edits1(words, known_only)`: every single edit of every word in `words`,
keyed by the resulting string with its number of distinct derivations. -/
def edits1 (t : Typo) (words : List JsStr) (knownOnly : Bool) :
    Except Unit (List (JsStr × Nat)) :=
  words.foldl
    (fun acc w =>
      match acc with
      | .error er => .error er
      | .ok rv =>
          (List.range (w.length + 1)).foldl
            (fun acc i =>
              match acc with
              | .error er => .error er
              | .ok rv => edits1At t knownOnly w i rv)
            (.ok rv))
    (.ok [])

/-- Add `n` to the count of `w` in the weighted-corrections hash. -/
def bumpBy (rv : List (JsStr × Nat)) (w : JsStr) (n : Nat) : List (JsStr × Nat) :=
  if rv.any (fun p => p.1 == w) then
    rv.map (fun p => if p.1 == w then (p.1, p.2 + n) else p)
  else rv ++ [(w, n)]

/-- The loop in `correct` merging the weights of the `check`-correct
edit-distance-1 words into the edit-distance-2 weights. -/
def mergeEd1 (t : Typo) (ed1 : List (JsStr × Nat)) (acc : List (JsStr × Nat)) :
    Except Unit (List (JsStr × Nat)) :=
  match ed1 with
  | [] => .ok acc
  | (w, n) :: rest =>
      match checkBody t w with
      | .error er => .error er
      | .ok true => mergeEd1 t rest (bumpBy acc w n)
      | .ok false => mergeEd1 t rest acc

/-- The weighted corrections computed by `correct`: edit-distance-2 counts
over the edit-distance-1 hash, merged with the `check`-correct
edit-distance-1 counts. -/
def weightedOf (t : Typo) (word : JsStr) : Except Unit (List (JsStr × Nat)) :=
  match edits1 t [word] false with
  | .error er => .error er
  | .ok ed1 =>
      match edits1 t (ed1.map (fun p => p.1)) true with
      | .error er => .error er
      | .ok ed2 => mergeEd1 t ed1 ed2

/-- The comparator `sorter` in `correct`: ascending weight, ties by
`b[0].localeCompare(a[0])` (modelled as code-unit comparison). -/
def sorter (a b : JsStr × Nat) : Int :=
  if a.2 < b.2 then -1
  else if b.2 < a.2 then 1
  else compareStrings b.1 a.1

/-- `sorter(a, b) <= 0`, the order realised by `Array.prototype.sort`. -/
def sorterLe (a b : JsStr × Nat) : Bool := sorter a b ≤ 0

/-- The `PRIORITYSUGGEST` bonus: `weighted_corrections[i] += 1000` for a
priority-suggest candidate, applied while building `sorted_corrections`. -/
def priorityAdjust (t : Typo) (p : JsStr × Nat) : JsStr × Nat :=
  if hasFlagMem t .PRIORITYSUGGEST p.1 then (p.1, p.2 + 1000) else p

/-- `sorted_corrections` after `sort(sorter).reverse()`: the bonus-adjusted
entries sorted by the comparator and reversed. -/
def sortedCorrectionsOf (t : Typo) (weighted : List (JsStr × Nat)) : List (JsStr × Nat) :=
  (jsSort sorterLe (weighted.map (priorityAdjust t))).reverse

/-- The capitalization scheme of the misspelled input word. -/
inductive CapScheme where
  | upper
  | capitalized
  | lower
deriving DecidableEq

/-- `capitalization_scheme` in `correct`. -/
def capSchemeOf (word : JsStr) : CapScheme :=
  if jsToUpper word = word then .upper
  else if (match word with
           | [] => ([] : JsStr)
           | c :: r => toUpperCode c :: jsToLower r) = word then .capitalized
  else .lower

/-- Re-case one suggestion to the input's capitalization scheme
(`toUpperCase()` / first letter upper-cased / unchanged). -/
def recase (scheme : CapScheme) (s : JsStr) : JsStr :=
  match scheme with
  | .upper => jsToUpper s
  | .capitalized =>
      match s with
      | [] => []
      | c :: r => toUpperCode c :: r
  | .lower => s

/-- The result-assembly loop of `correct`: walk `sorted_corrections` in
order, re-case each candidate, skip `NOSUGGEST` candidates and duplicates
(incrementing `working_limit`, i.e. without consuming the limit), and stop
once `limit` suggestions are collected. -/
def assembleLoop (t : Typo) (scheme : CapScheme) :
    List (JsStr × Nat) → Nat → List JsStr → List JsStr
  | [], _, rv => rv
  | (s, _) :: rest, limit, rv =>
      if limit ≤ rv.length then rv
      else
        let s' := recase scheme s
        if hasFlagMem t .NOSUGGEST s' = false ∧ s' ∉ rv then
          assembleLoop t scheme rest limit (rv ++ [s'])
        else
          assembleLoop t scheme rest limit rv

/-- `correct(word)`: weighted corrections, priority adjustment, sorting, and
result assembly under the input's capitalization scheme. -/
def correctFn (t : Typo) (word : JsStr) (limit : Nat) : Except Unit (List JsStr) :=
  match weightedOf t word with
  | .error er => .error er
  | .ok weighted =>
      .ok (assembleLoop t (capSchemeOf word) (sortedCorrectionsOf t weighted) limit [])

/-- `this.memoized[word]`. -/
def memoLookup (m : List (JsStr × (List JsStr × Nat))) (w : JsStr) :
    Option (List JsStr × Nat) :=
  (m.find? (fun p => p.1 == w)).map (fun p => p.2)

/-- `this.memoized[word] = {suggestions, limit}` (replace or append). -/
def memoSet (m : List (JsStr × (List JsStr × Nat))) (w : JsStr) (v : List JsStr × Nat) :
    List (JsStr × (List JsStr × Nat)) :=
  if m.any (fun p => p.1 == w) then m.map (fun p => if p.1 == w then (w, v) else p)
  else m ++ [(w, v)]

/-- The replacement-table loop of `suggest`: the first entry whose pattern
occurs in the word and whose substitution passes `check` short-circuits. -/
def replLoop (t : Typo) (word : JsStr) :
    List (JsStr × JsStr) → Except Unit (Option JsStr)
  | [] => .ok none
  | (pat, rep) :: rest =>
      if jsIndexOf word pat ≠ -1 then
        let corrected := jsReplaceFirst word pat rep
        match checkBody t corrected with
        | .error er => .error er
        | .ok true => .ok (some corrected)
        | .ok false => replLoop t word rest
      else replLoop t word rest

/-- The lazy alphabet construction at the start of the candidate-generation
path of `suggest`: build `this.alphabet` once, when still empty. -/
def alphaResolve (t : Typo) : Typo :=
  if t.alphabet = [] then { t with alphabet := buildAlphabet t.flags } else t

/-- The non-memoized path of `suggest`: return `[]` for a correct word, try
the replacement table (this path does not memoize), otherwise build the
alphabet if needed, run `correct` and memoize its result. -/
def suggestMain (t : Typo) (word : JsStr) (limit : Nat) :
    Except Unit (List JsStr × Typo) :=
  match checkBody t word with
  | .error er => .error er
  | .ok true => .ok ([], t)
  | .ok false =>
      match replLoop t word t.replacementTable with
      | .error er => .error er
      | .ok (some corrected) => .ok ([corrected], t)
      | .ok none =>
          match correctFn (alphaResolve t) word limit with
          | .error er => .error er
          | .ok r =>
              .ok (r, { alphaResolve t with
                        memoized := memoSet (alphaResolve t).memoized word (r, limit) })

/-- `suggest(word, limit)` (body after the loaded check): `limit || 5`, the
memo served when it holds enough suggestions (or was exhausted below a
previous limit), otherwise the main path. -/
def suggestS (t : Typo) (word : JsStr) (limit0 : Nat) :
    Except Unit (List JsStr × Typo) :=
  match memoLookup t.memoized word with
  | some sl =>
      if (if limit0 = 0 then 5 else limit0) ≤ sl.2 ∨ sl.1.length < sl.2 then
        .ok (sl.1.take (if limit0 = 0 then 5 else limit0), t)
      else suggestMain t word (if limit0 = 0 then 5 else limit0)
  | none => suggestMain t word (if limit0 = 0 then 5 else limit0)

/-- Public `suggest`: throws "Dictionary not loaded." before Ready. -/
def suggestE (t : Typo) (w : JsStr) (k : Nat) : Except JsErr (List JsStr × Typo) :=
  if t.loaded then (suggestS t w k).mapError (fun _ => JsErr.typeError)
  else .error .notLoaded

/-! ## Pre-calculated (paged) backend -/

/-- A word entry of a partition: `{w: word, r: rules}` with `r` either
`null` or the list of rule-code sets. -/
abbrev WEntry := JsStr × Option (List (List JsStr))

/-- `_getPartitionPrefix(word)`: the first two characters lower-cased, a
shorter word padded on the left with `'_'` (code 95). -/
def getPartitionKey (word : JsStr) : JsStr :=
  if 2 ≤ word.length then jsToLower (word.take 2) else jsToLower (95 :: word)

/-- The loop of `_binarySearch` over a code-point-sorted partition.
`Math.floor((left + right) / 2)` is Euclidean division by 2 (the divisor is
positive).  The loop shrinks the interval `[left, right]` by at least one
position per iteration, so a fuel of `words.length + 1` never runs out when
the search starts from the full index range. -/
def binarySearchGo (words : List WEntry) (target : JsStr) : Int → Int → Nat → Bool
  | _, _, 0 => false
  | left, right, fuel + 1 =>
    if left ≤ right then
      let mid := (left + right) / 2
      let wd := words.getD mid.toNat ([], none)
      let cmp := compareStrings wd.1 target
      if cmp = 0 then true
      else if cmp < 0 then binarySearchGo words target (mid + 1) right fuel
      else binarySearchGo words target left (mid - 1) fuel
    else false

/-- `_binarySearch(words, target)`. -/
def binarySearch (words : List WEntry) (target : JsStr) : Bool :=
  binarySearchGo words target 0 ((words.length : Int) - 1) (words.length + 1)

/-- The pre-calculated `Typo` instance state used by `checkExact` queries.
`partitions` is the durable on-disk layout (`partitionIndex` holds exactly
its keys); the two LRU caches are the in-process mutable state. -/
structure TypoPre where
  loaded : Bool
  flags : Flags
  compoundRules : List (List CTok)
  replacementTable : List (JsStr × JsStr)
  bloomFilter : Bloom
  partitions : List (JsStr × List WEntry)
  partitionCache : LRU (List WEntry)
  notFoundCache : LRU Bool

/-- The persisted partition body for a prefix, when the directory has it. -/
def partitionsLookup (ps : List (JsStr × List WEntry)) (k : JsStr) : Option (List WEntry) :=
  (ps.find? (fun p => p.1 == k)).map (fun p => p.2)

/-- `_loadPartition(prefix)`: serve from the partition cache (refreshing the
access order), return `[]` for an unknown prefix, otherwise read the
partition from disk and cache it with LRU eviction. -/
def loadPartition (t : TypoPre) (k : JsStr) : List WEntry × TypoPre :=
  if t.partitionCache.has k then
    let gv := t.partitionCache.get k
    (gv.1.getD [], { t with partitionCache := gv.2 })
  else
    match partitionsLookup t.partitions k with
    | none => ([], t)
    | some ws => (ws, { t with partitionCache := t.partitionCache.set k ws })

/-- `_checkPreCalculated(word)`: known-absent cache, bloom-filter rejection,
partition load + binary search, then the compound-rule fallback; a miss is
recorded in the known-absent cache. -/
def checkPre (t : TypoPre) (word : JsStr) : Bool × TypoPre :=
  if t.notFoundCache.has word then (false, t)
  else if !(t.bloomFilter.mightContain word) then
    (false, { t with notFoundCache := t.notFoundCache.addKey word })
  else
    let pw := loadPartition t (getPartitionKey word)
    let t1 := pw.2
    let found := binarySearch pw.1 word
    if !found then
      if ((match t1.flags.COMPOUNDMIN with
            | some m => decide (m ≤ word.length)
            | none => false) && t1.compoundRules.any (fun r => compoundMatch r word)) = true then
        (true, t1)
      else (false, { t1 with notFoundCache := t1.notFoundCache.addKey word })
    else (found, t1)

/-- Insertion-ordered grouping of the sorted word list into partitions keyed
by `_getPartitionPrefix`. -/
def buildPartitions (ws : List WEntry) : List (JsStr × List WEntry) :=
  ws.foldl
    (fun acc e =>
      let k := getPartitionKey e.1
      if acc.any (fun p => p.1 == k) then
        acc.map (fun p => if p.1 == k then (p.1, p.2 ++ [e]) else p)
      else acc ++ [(k, [e])])
    []

/-- The export sort order `compareStrings(a.word, b.word)` as a Boolean
`le` relation for `mergeSort`. -/
def sorterLeWords (a b : WEntry) : Bool := compareStrings a.1 b.1 ≤ 0

/-- `exportPreCalculated()` followed by importing the result as a
pre-calculated dictionary: collect the table's entries, sort them by
code-point order, size a bloom filter at 10 bits per word with 3 probes and
insert every word, group the sorted entries into 2-character-prefix
partitions, and carry over the compound rules, flags and replacement table;
the imported instance starts with empty caches of the default capacities
(20 partitions, 10000 known-absent words). -/
def exportPre (t : Typo) : TypoPre :=
  let sortedWords := jsSort sorterLeWords t.dictionaryTable
  let bloom := sortedWords.foldl (fun b p => b.add p.1) (Bloom.mkJs (sortedWords.length * 10) 3)
  { loaded := true
    flags := t.flags
    compoundRules := t.compoundRules
    replacementTable := t.replacementTable
    bloomFilter := bloom
    partitions := buildPartitions sortedWords
    partitionCache := LRU.empty _ 20
    notFoundCache := LRU.empty _ 10000 }

/-! ## Concrete instances used by the claim theorems -/

/-- `"ab"`. -/
def wAB : JsStr := [97, 98]
/-- `"c"` (used as the `ONLYINCOMPOUND` rule code). -/
def wC : JsStr := [99]
/-- `"zz"`. -/
def wZZ : JsStr := [122, 122]
/-- `"aaa"`. -/
def wAAA : JsStr := [97, 97, 97]
/-- `"bbb"`. -/
def wBBB : JsStr := [98, 98, 98]
/-- `"aaabbb"`. -/
def wAAABBB : JsStr := [97, 97, 97, 98, 98, 98]

/-- A loaded in-memory dictionary registering `"ab"` only under a code set
carrying the `ONLYINCOMPOUND` code `"c"`. -/
def dictOIC : Typo :=
  { loaded := true
    dictionaryTable := [(wAB, some [[wC]])]
    compoundRules := []
    flags := { ONLYINCOMPOUND := some wC }
    replacementTable := []
    memoized := [] }

/-- A loaded in-memory dictionary registering `"aaa"` and `"bbb"` under the
rule codes `A` and `B`, with the compiled compound rule `AB` and
`COMPOUNDMIN 3`; `"aaabbb"` is an unregistered valid compound. -/
def dictCompound : Typo :=
  { loaded := true
    dictionaryTable := [(wAAA, some [[[65]]]), (wBBB, some [[[66]]])]
    compoundRules := [[CTok.grp [wAAA], CTok.grp [wBBB]]]
    flags := { COMPOUNDMIN := some 3 }
    replacementTable := []
    memoized := [] }

/-- A minimal loaded dictionary containing only the codeless word `"ab"`. -/
def dictAB : Typo :=
  { loaded := true
    dictionaryTable := [(wAB, none)]
    compoundRules := []
    flags := {}
    replacementTable := []
    memoized := [] }

/-- `dictAB` before loading completes. -/
def dictABUnloaded : Typo := { dictAB with loaded := false }

/-! ## C1 -/

/-- C1: the eager in-memory backend and the paged backend obtained by
exporting it do NOT return the same boolean from `checkExact` for every
word.  Two divergences: (1) `"ab"`, registered only under an
`ONLYINCOMPOUND`-flagged code set, is rejected by the in-memory backend but
accepted by the paged backend (its binary search ignores the rule codes);
(2) the unregistered valid compound `"aaabbb"` is accepted by the in-memory
backend but rejected by the paged backend because the bloom filter
(which holds only the registered words) short-circuits the lookup before the
compound-rule fallback can run. -/
theorem checkExact_backend_divergence :
    (checkExactMem dictOIC wAB = false ∧ (checkPre (exportPre dictOIC) wAB).1 = true) ∧
    (checkExactMem dictCompound wAAABBB = true ∧
      (checkPre (exportPre dictCompound) wAAABBB).1 = false) := by decide

/-! ## C7 -/

/-- C7: every query on a not-yet-loaded instance throws synchronously, and
an ordinary lookup miss on a loaded instance is the boolean `false` — but
`check` (and hence `suggest`) on a loaded instance THROWS a `TypeError` on a
whitespace-only input word (`" "`): the trimmed word is empty, so
`trimmedWord[0]` is `undefined` and `trimmedWord[0].toLowerCase()` raises,
contradicting "lookup misses are a plain boolean false, never thrown". -/
theorem query_errors_and_whitespace_typeError :
    (checkE dictABUnloaded wAB = .error .notLoaded ∧
      checkExactE dictABUnloaded wAB = .error .notLoaded ∧
      hasFlagE dictABUnloaded .KEEPCASE wAB = .error .notLoaded ∧
      suggestE dictABUnloaded wAB 5 = .error .notLoaded) ∧
    (checkE dictAB wZZ = .ok false ∧ checkExactE dictAB wZZ = .ok false) ∧
    (checkE dictAB [32] = .error .typeError ∧
      suggestE dictAB [32] 5 = .error .typeError) := by decide

/-! ## C2 -/

/-- `"nasa"`. -/
def wnasa : JsStr := [110, 97, 115, 97]
/-- `"Nasa"`. -/
def wNasa : JsStr := [78, 97, 115, 97]
/-- `"NASA"`. -/
def wNASA : JsStr := [78, 65, 83, 65]
/-- `"k"` (used as the `KEEPCASE` rule code). -/
def wK : JsStr := [107]

/-- A loaded dictionary registering only `"nasa"`, marked `KEEPCASE`. -/
def dictNasaKC : Typo :=
  { loaded := true
    dictionaryTable := [(wnasa, some [[wK]])]
    compoundRules := []
    flags := { KEEPCASE := some wK }
    replacementTable := []
    memoized := [] }

/-- C2 is false as stated: for the all-upper-case input `"NASA"` (not an
exact hit), the lower-cased variant `"nasa"` is the only exact hit and the
dictionary marks exactly that variant keep-case — so under the claim every
successful variant is rejected and `check` should return `false` — yet
`check("NASA")` returns `true`: the code never consults `KEEPCASE` on the
lower-cased variant. -/
theorem check_keepcase_counterexample :
    hasFlagMem dictNasaKC .KEEPCASE wnasa = true ∧
    checkExactMem dictNasaKC wNASA = false ∧
    checkExactMem dictNasaKC wNasa = false ∧
    hasFlagMem dictNasaKC .KEEPCASE wNasa = false ∧
    checkExactMem dictNasaKC wnasa = true ∧
    checkE dictNasaKC wNASA = .ok true := by decide

/-- The first-letter-lowered variant of a word (total helper for stating
properties of `check` on nonempty trimmed words). -/
def uncapVariantOf (s : JsStr) : JsStr :=
  match s with
  | [] => []
  | c :: r => toLowerCode c :: r

/-- C2 amended: for an input whose trimmed form is nonempty, entirely
upper-case and not an exact hit, `check` first computes the capitalized
variant; if THAT variant is marked keep-case the whole check returns `false`
immediately (the remaining variants are not tried); otherwise `check`
succeeds iff the capitalized variant or the lower-cased variant is an exact
hit — the lower-cased variant is NOT guarded by keep-case — or, failing
those, the first-letter-lowered variant differs, is not marked keep-case,
and is an exact hit.  First success wins and no error is thrown. -/
theorem check_upper_variants (t : Typo) (w : JsStr)
    (hne : jsTrim w ≠ [])
    (hup : jsToUpper (jsTrim w) = jsTrim w)
    (hmiss : checkExactMem t (jsTrim w) = false) :
    checkBody t w = .ok (
      !(hasFlagMem t .KEEPCASE (capitalizedWordOf (jsTrim w))) &&
        (checkExactMem t (capitalizedWordOf (jsTrim w)) ||
         checkExactMem t (jsToLower (jsTrim w)) ||
         ((uncapVariantOf (jsTrim w) != jsTrim w) &&
          !(hasFlagMem t .KEEPCASE (uncapVariantOf (jsTrim w))) &&
          checkExactMem t (uncapVariantOf (jsTrim w))))) := by
  obtain ⟨c, r, htr⟩ : ∃ c r, jsTrim w = c :: r := by
    cases h : jsTrim w with
    | nil => exact absurd h hne
    | cons c r => exact ⟨c, r, rfl⟩
  have hw : ¬ w = [] := by
    intro h
    rw [h] at htr
    simp [jsTrim] at htr
  unfold checkBody
  rw [if_neg hw]
  simp only [hmiss, hup, if_false, if_true, Bool.false_eq_true, if_pos]
  by_cases hkc : hasFlagMem t .KEEPCASE (capitalizedWordOf (jsTrim w)) = true
  · simp [hkc]
  · simp only [Bool.not_eq_true] at hkc
    simp only [hkc, Bool.not_false, Bool.true_and, if_false, Bool.false_eq_true]
    by_cases hcap : checkExactMem t (capitalizedWordOf (jsTrim w)) = true
    · simp [hcap]
    · simp only [Bool.not_eq_true] at hcap
      simp only [hcap, Bool.false_or, if_false, Bool.false_eq_true]
      by_cases hlow : checkExactMem t (jsToLower (jsTrim w)) = true
      · simp [hlow]
      · simp only [Bool.not_eq_true] at hlow
        simp only [hlow, Bool.false_or, if_false, Bool.false_eq_true]
        rw [htr]
        simp only [checkUncapPart, uncapitalizedWordOf, uncapVariantOf]
        by_cases hdif : toLowerCode c :: r = c :: r
        · simp [hdif]
        · simp only [ne_eq, hdif, not_false_eq_true, if_true, bne_iff_ne,
            if_pos, Bool.true_and]
          by_cases hukc : hasFlagMem t .KEEPCASE (toLowerCode c :: r) = true
          · simp [hukc]
          · simp only [Bool.not_eq_true] at hukc
            simp [hukc]
            intro _ hc
            exact hdif (by rw [hc])

/-- Witness for the amended C2 at `dictNasaKC` and the input `"NASA"`. -/
theorem check_upper_variants_witness :
    checkBody dictNasaKC wNASA = .ok true := by
  have h := check_upper_variants dictNasaKC wNASA (by decide) (by decide) (by decide)
  rw [h]
  decide

/-! ## C3 -/

/-- A loaded dictionary with an empty word table, no `COMPOUNDMIN`
directive, and one compiled compound rule of two literal characters
matching exactly `"ab"`. -/
def dictLitRule : Typo :=
  { loaded := true
    dictionaryTable := []
    compoundRules := [[CTok.lit 97, CTok.lit 98]]
    flags := {}
    replacementTable := []
    memoized := [] }

/-- C3 is false as stated: `"ab"` has no dictionary hit of any kind yet
matches a compound matcher, so the claimed iff forces `checkExact("ab")` to
be `true` — but the code returns `false`, because the compound matchers are
only consulted when the `COMPOUNDMIN` directive is present (and the word is
long enough). -/
theorem checkExact_compound_counterexample :
    dtLookup dictLitRule.dictionaryTable wAB = none ∧
    dictLitRule.compoundRules.any (fun r => compoundMatch r wAB) = true ∧
    checkExactMem dictLitRule wAB = false := by decide

/-- C3 amended (in-memory backend): `checkExact(word)` is true iff the
table registers the word with no codes, or registers it with at least one
code set lacking the `ONLYINCOMPOUND` code, or the word has no entry at all
while `COMPOUNDMIN` is configured, the word's length reaches it, and some
compiled compound matcher matches. -/
theorem checkExact_mem_iff (t : Typo) (w : JsStr) :
    checkExactMem t w = true ↔
      dtLookup t.dictionaryTable w = some none ∨
      (∃ css, dtLookup t.dictionaryTable w = some (some css) ∧
        ∃ cs ∈ css, hasFlagW t.flags.ONLYINCOMPOUND cs = false) ∨
      (dtLookup t.dictionaryTable w = none ∧
        ∃ m, t.flags.COMPOUNDMIN = some m ∧ m ≤ w.length ∧
          t.compoundRules.any (fun r => compoundMatch r w) = true) := by
  unfold checkExactMem
  cases hdt : dtLookup t.dictionaryTable w with
  | none =>
      cases hm : t.flags.COMPOUNDMIN with
      | none => simp [hm]
      | some m =>
          by_cases hl : m ≤ w.length
          · simp [hm, hl]
          · simp [hm, hl]
  | some o =>
      cases o with
      | none => simp
      | some css => simp [List.any_eq_true]

/-! ## C4 -/

/-- `dictCompound` with the compound word `"aaabbb"` additionally registered
under a code set carrying only the `ONLYINCOMPOUND` code. -/
def dictCompoundOIC : Typo :=
  { loaded := true
    dictionaryTable :=
      [(wAAABBB, some [[wC]]), (wAAA, some [[[65]]]), (wBBB, some [[[66]]])]
    compoundRules := [[CTok.grp [wAAA], CTok.grp [wBBB]]]
    flags := { ONLYINCOMPOUND := some wC, COMPOUNDMIN := some 3 }
    replacementTable := []
    memoized := [] }

/-- C4 is false as stated: `"aaabbb"` is not a plain dictionary hit (its
only code set carries the `ONLYINCOMPOUND` code), its length meets the
configured minimum 3, and it matches a compiled matcher — so under the
claim it must be accepted as a valid compound — yet `checkExact` returns
`false`: the compound fallback only runs for words with no table entry at
all. -/
theorem compound_registered_counterexample :
    dictCompoundOIC.flags.COMPOUNDMIN = some 3 ∧
    3 ≤ wAAABBB.length ∧
    dictCompoundOIC.compoundRules.any (fun r => compoundMatch r wAAABBB) = true ∧
    dtLookup dictCompoundOIC.dictionaryTable wAAABBB = some (some [[wC]]) ∧
    hasFlagW dictCompoundOIC.flags.ONLYINCOMPOUND [wC] = true ∧
    checkExactMem dictCompoundOIC wAAABBB = false := by decide

/-- C4 amended: a word with NO entry in the dictionary table is accepted
(as a valid compound) iff the `COMPOUNDMIN` directive is configured, the
word's length meets it, and the word matches at least one compiled compound
matcher. -/
theorem compound_fallback_iff (t : Typo) (w : JsStr)
    (h : dtLookup t.dictionaryTable w = none) :
    checkExactMem t w = true ↔
      ∃ m, t.flags.COMPOUNDMIN = some m ∧ m ≤ w.length ∧
        t.compoundRules.any (fun r => compoundMatch r w) = true := by
  unfold checkExactMem
  rw [h]
  cases hm : t.flags.COMPOUNDMIN with
  | none => simp
  | some m =>
      by_cases hl : m ≤ w.length
      · simp [hl]
      · simp [hl]

/-- Witness for the amended C4, realising the claim's own scenario:
`COMPOUNDMIN 3`, a pattern covering two tagged 3-letter words, and the
unregistered concatenation `"aaabbb"` checks true. -/
theorem compound_fallback_witness :
    checkExactMem dictCompound wAAABBB = true :=
  (compound_fallback_iff dictCompound wAAABBB (by decide)).mpr
    ⟨3, by decide, by decide, by decide⟩

/-! ## C5 -/

/-- The byte-array bit test is `Nat.testBit` on the addressed byte. -/
theorem bitTest_eq_testBit (bits : Nat → Nat) (idx : Nat) :
    bitTest bits idx = (bits (idx / 8)).testBit (idx % 8) := by
  unfold bitTest
  rw [Nat.one_shiftLeft, Nat.and_two_pow]
  cases h : (bits (idx / 8)).testBit (idx % 8) with
  | false => simp [h]
  | true => simp [h, Nat.pow_eq_zero]

/-- Setting a bit makes its test succeed. -/
theorem bitTest_setBit_self (bits : Nat → Nat) (idx : Nat) :
    bitTest (setBit bits idx) idx = true := by
  rw [bitTest_eq_testBit]
  unfold setBit
  simp [Nat.one_shiftLeft, Nat.testBit_or]

/-- Setting a bit preserves every bit already set. -/
theorem bitTest_setBit_mono (bits : Nat → Nat) (i j : Nat)
    (h : bitTest bits j = true) : bitTest (setBit bits i) j = true := by
  rw [bitTest_eq_testBit] at h ⊢
  unfold setBit
  by_cases hj : j / 8 = i / 8
  · rw [if_pos hj]
    simp [Nat.testBit_or, h]
  · rw [if_neg hj]
    exact h

/-- A fold of `setBit`s preserves every bit already set. -/
theorem foldl_setBit_mono (g : Nat → Nat) :
    ∀ (l : List Nat) (b : Nat → Nat) (j : Nat), bitTest b j = true →
      bitTest (l.foldl (fun bb i => setBit bb (g i)) b) j = true
  | [], _, _, h => h
  | i :: is, b, j, h =>
      foldl_setBit_mono g is (setBit b (g i)) j (bitTest_setBit_mono b (g i) j h)

/-- After a fold of `setBit`s over a list of probe indices, every probed bit
is set. -/
theorem foldl_setBit_self (g : Nat → Nat) :
    ∀ (l : List Nat) (b : Nat → Nat) (i : Nat), i ∈ l →
      bitTest (l.foldl (fun bb i => setBit bb (g i)) b) (g i) = true := by
  intro l
  induction l with
  | nil => intro b i h; cases h
  | cons a as ih =>
      intro b i h
      rcases List.mem_cons.mp h with h | h
      · subst h
        exact foldl_setBit_mono g as (setBit b (g i)) (g i) (bitTest_setBit_self b (g i))
      · exact ih (setBit b (g a)) i h

/-- `add` makes `mightContain` succeed for the added word. -/
theorem mightContain_add_self (f : Bloom) (w : JsStr) :
    (f.add w).mightContain w = true := by
  unfold Bloom.add Bloom.mightContain
  simp only [List.all_eq_true]
  intro i hi
  exact foldl_setBit_self (fun i => bloomHash w i % f.size) _ f.bits i hi

/-- `add` preserves `mightContain` for every other word. -/
theorem mightContain_add_mono (f : Bloom) (v w : JsStr)
    (h : f.mightContain w = true) : (f.add v).mightContain w = true := by
  unfold Bloom.mightContain at h ⊢
  unfold Bloom.add
  dsimp only
  simp only [List.all_eq_true] at h ⊢
  intro i hi
  exact foldl_setBit_mono (fun i => bloomHash v i % f.size) _ f.bits _ (h i hi)

/-- A fold of `add`s (over the words selected by `key`) preserves
`mightContain`. -/
theorem foldl_bloomAdd_mono {A : Type} (key : A → JsStr) :
    ∀ (l : List A) (f : Bloom) (w : JsStr), f.mightContain w = true →
      (l.foldl (fun b a => b.add (key a)) f).mightContain w = true
  | [], _, _, h => h
  | a :: as, f, w, h =>
      foldl_bloomAdd_mono key as (f.add (key a)) w (mightContain_add_mono f (key a) w h)

/-- After a fold of `add`s, `mightContain` succeeds for every inserted word. -/
theorem foldl_bloomAdd_self {A : Type} (key : A → JsStr) :
    ∀ (l : List A) (f : Bloom) (a : A), a ∈ l →
      (l.foldl (fun b x => b.add (key x)) f).mightContain (key a) = true := by
  intro l
  induction l with
  | nil => intro f a h; cases h
  | cons x xs ih =>
      intro f a h
      rcases List.mem_cons.mp h with h | h
      · subst h
        exact foldl_bloomAdd_mono key xs (f.add (key a)) (key a) (mightContain_add_self f (key a))
      · exact ih (f.add (key x)) a h

/-- `insertSorted` permutes the cons. -/
theorem insertSorted_perm {A : Type} (le : A → A → Bool) (a : A) :
    ∀ (l : List A), (insertSorted le a l).Perm (a :: l)
  | [] => List.Perm.refl _
  | b :: bs => by
      unfold insertSorted
      by_cases h : le a b = true
      · simp [h]
      · simp only [h, if_neg, Bool.false_eq_true, if_false]
        exact ((insertSorted_perm le a bs).cons b).trans (List.Perm.swap a b bs)

/-- `jsSort` permutes its input. -/
theorem jsSort_perm {A : Type} (le : A → A → Bool) :
    ∀ (l : List A), (jsSort le l).Perm l
  | [] => List.Perm.refl _
  | a :: as => (insertSorted_perm le a (jsSort le as)).trans ((jsSort_perm le as).cons a)

/-- C5: bloom filters have no false negatives.  (1) For every filter of
positive size and every sequence of `add`s starting from a fresh filter,
`mightContain` is true for every inserted word.  (2) In particular, every
word of the dictionary table inserted during `exportPreCalculated` satisfies
`mightContain` on the exported filter. -/
theorem bloom_no_false_negatives :
    (∀ (size numH : Nat) (ws : List JsStr) (w : JsStr), 0 < size → w ∈ ws →
      (ws.foldl Bloom.add (Bloom.mkJs size numH)).mightContain w = true) ∧
    (∀ (t : Typo) (w : JsStr) (r : Option (List (List JsStr))),
      (w, r) ∈ t.dictionaryTable →
      (exportPre t).bloomFilter.mightContain w = true) := by
  constructor
  · intro size numH ws w _ hmem
    have h := foldl_bloomAdd_self (fun x : JsStr => x) ws (Bloom.mkJs size numH) w hmem
    simpa using h
  · intro t w r hmem
    unfold exportPre
    have hmem2 : (w, r) ∈ jsSort sorterLeWords t.dictionaryTable :=
      ((jsSort_perm sorterLeWords t.dictionaryTable).mem_iff).mpr hmem
    have h := foldl_bloomAdd_self (fun p : WEntry => p.1)
      (jsSort sorterLeWords t.dictionaryTable)
      (Bloom.mkJs ((jsSort sorterLeWords t.dictionaryTable).length * 10) 3) (w, r) hmem2
    simpa using h

/-- Witness for C5 at a concrete filter (word `"ab"`, 20 bits, 3 probes) and
at the exported filter of `dictOIC`. -/
theorem bloom_no_false_negatives_witness :
    (([wAB] : List JsStr).foldl Bloom.add (Bloom.mkJs 20 3)).mightContain wAB = true ∧
    (exportPre dictOIC).bloomFilter.mightContain wAB = true :=
  ⟨bloom_no_false_negatives.1 20 3 [wAB] wAB (by decide) (by simp),
   bloom_no_false_negatives.2 dictOIC wAB (some [[wC]]) (by simp [dictOIC])⟩

/-! ## C6 -/

/-- `jsLt` is irreflexive. -/
theorem jsLt_irrefl : ∀ a : JsStr, jsLt a a = false
  | [] => rfl
  | _ :: cs => by simp [jsLt, jsLt_irrefl cs]

/-- `jsLt` is transitive. -/
theorem jsLt_trans : ∀ a b c : JsStr, jsLt a b = true → jsLt b c = true → jsLt a c = true
  | [], [], _, h1, _ => by simp [jsLt] at h1
  | [], _ :: _, [], _, h2 => by simp [jsLt] at h2
  | [], _ :: _, _ :: _, _, _ => rfl
  | _ :: _, [], _, h1, _ => by simp [jsLt] at h1
  | _ :: _, _ :: _, [], _, h2 => by simp [jsLt] at h2
  | a :: as, b :: bs, c :: cs, h1, h2 => by
      unfold jsLt at h1 h2 ⊢
      rcases Nat.lt_trichotomy a b with hab | hab | hab
      · rcases Nat.lt_trichotomy b c with hbc | hbc | hbc
        · simp [Nat.lt_trans hab hbc]
        · subst hbc
          simp [hab]
        · rw [if_neg (by omega), if_pos hbc] at h2
          exact absurd h2 (by simp)
      · subst hab
        rw [if_neg (by omega), if_neg (by omega)] at h1
        rcases Nat.lt_trichotomy a c with hac | hac | hac
        · simp [hac]
        · subst hac
          rw [if_neg (by omega), if_neg (by omega)] at h2 ⊢
          exact jsLt_trans as bs cs h1 h2
        · rw [if_neg (by omega), if_pos hac] at h2
          exact absurd h2 (by simp)
      · rw [if_neg (by omega), if_pos hab] at h1
        exact absurd h1 (by simp)

/-- Two strings neither of which is `jsLt`-below the other are equal. -/
theorem jsLt_connex : ∀ a b : JsStr, jsLt a b = false → jsLt b a = false → a = b
  | [], [], _, _ => rfl
  | [], _ :: _, h1, _ => by simp [jsLt] at h1
  | _ :: _, [], _, h2 => by simp [jsLt] at h2
  | a :: as, b :: bs, h1, h2 => by
      unfold jsLt at h1 h2
      by_cases hab : a < b
      · simp [hab] at h1
      · by_cases hba : b < a
        · simp [hab, hba] at h2
        · have : a = b := by omega
          subst this
          simp only [Nat.lt_irrefl, if_false, Bool.false_eq_true] at h1 h2
          rw [jsLt_connex as bs (by simpa using h1) (by simpa using h2)]

/-- `compareStrings a b <= 0` means `a` is below or equal to `b`. -/
theorem compareStrings_le_zero (a b : JsStr) :
    compareStrings a b ≤ 0 ↔ (jsLt a b = true ∨ a = b) := by
  unfold compareStrings
  by_cases h1 : jsLt a b = true
  · rw [if_pos h1]
    exact iff_of_true (by omega) (Or.inl h1)
  · rw [if_neg h1]
    by_cases h2 : jsLt b a = true
    · rw [if_pos h2]
      refine iff_of_false (by omega) ?_
      rintro (h | rfl)
      · exact h1 h
      · rw [jsLt_irrefl] at h2
        exact absurd h2 (by simp)
    · rw [if_neg h2]
      exact iff_of_true (by omega)
        (Or.inr (jsLt_connex a b (by simpa using h1) (by simpa using h2)))

/-- Unfolding of the comparator order `sorterLe`: ascending weight, ties by
descending string (the list is reversed afterwards). -/
theorem sorterLe_iff (a b : JsStr × Nat) :
    sorterLe a b = true ↔
      a.2 < b.2 ∨ (a.2 = b.2 ∧ (jsLt b.1 a.1 = true ∨ b.1 = a.1)) := by
  unfold sorterLe sorter
  rw [decide_eq_true_eq]
  by_cases h1 : a.2 < b.2
  · rw [if_pos h1]
    exact iff_of_true (by omega) (Or.inl h1)
  · rw [if_neg h1]
    by_cases h2 : b.2 < a.2
    · rw [if_pos h2]
      refine iff_of_false (by omega) ?_
      rintro (h | ⟨he, _⟩)
      · omega
      · omega
    · rw [if_neg h2]
      rw [compareStrings_le_zero]
      have he : a.2 = b.2 := by omega
      constructor
      · rintro (h | h)
        · exact Or.inr ⟨he, Or.inl h⟩
        · exact Or.inr ⟨he, Or.inr h⟩
      · rintro (h | ⟨_, hs | hs⟩)
        · omega
        · exact Or.inl hs
        · exact Or.inr hs

/-- The comparator order is total. -/
theorem sorterLe_total (a b : JsStr × Nat) :
    sorterLe a b = true ∨ sorterLe b a = true := by
  rw [sorterLe_iff, sorterLe_iff]
  by_cases h1 : jsLt b.1 a.1 = true
  · by_cases h : a.2 < b.2
    · omega
    · by_cases h' : b.2 < a.2
      · omega
      · exact Or.inl (Or.inr ⟨by omega, Or.inl h1⟩)
  · by_cases h2 : jsLt a.1 b.1 = true
    · by_cases h : a.2 < b.2
      · omega
      · by_cases h' : b.2 < a.2
        · omega
        · exact Or.inr (Or.inr ⟨by omega, Or.inl h2⟩)
    · have : a.1 = b.1 := jsLt_connex a.1 b.1 (by simpa using h2) (by simpa using h1)
      by_cases h : a.2 < b.2
      · omega
      · by_cases h' : b.2 < a.2
        · omega
        · exact Or.inl (Or.inr ⟨by omega, Or.inr this.symm⟩)

/-- The comparator order is transitive. -/
theorem sorterLe_trans (a b c : JsStr × Nat)
    (h1 : sorterLe a b = true) (h2 : sorterLe b c = true) : sorterLe a c = true := by
  rw [sorterLe_iff] at h1 h2 ⊢
  rcases h1 with h1 | ⟨h1e, h1s⟩
  · rcases h2 with h2 | ⟨h2e, _⟩
    · omega
    · omega
  · rcases h2 with h2 | ⟨h2e, h2s⟩
    · omega
    · refine Or.inr ⟨by omega, ?_⟩
      rcases h1s with h1s | h1s
      · rcases h2s with h2s | h2s
        · exact Or.inl (jsLt_trans c.1 b.1 a.1 h2s h1s)
        · rw [h2s]
          exact Or.inl h1s
      · rcases h2s with h2s | h2s
        · rw [← h1s]
          exact Or.inl h2s
        · exact Or.inr (h2s.trans h1s)

/-- `insertSorted` preserves sortedness for a transitive, total order. -/
theorem insertSorted_pairwise {A : Type} (le : A → A → Bool)
    (htrans : ∀ a b c, le a b = true → le b c = true → le a c = true)
    (htotal : ∀ a b, le a b = true ∨ le b a = true) (a : A) :
    ∀ l : List A, l.Pairwise (fun x y => le x y = true) →
      (insertSorted le a l).Pairwise (fun x y => le x y = true) := by
  intro l
  induction l with
  | nil => intro _; simp [insertSorted]
  | cons b bs ih =>
      intro h
      unfold insertSorted
      rcases List.pairwise_cons.mp h with ⟨hb, hbs⟩
      by_cases hab : le a b = true
      · rw [if_pos hab]
        refine List.pairwise_cons.mpr ⟨?_, h⟩
        intro x hx
        rcases List.mem_cons.mp hx with rfl | hx
        · exact hab
        · exact htrans a b x hab (hb x hx)
      · rw [if_neg hab]
        refine List.pairwise_cons.mpr ⟨?_, ih hbs⟩
        intro x hx
        have hx2 : x = a ∨ x ∈ bs :=
          List.mem_cons.mp ((insertSorted_perm le a bs).mem_iff.mp hx)
        rcases hx2 with h' | hx2
        · subst h'
          rcases htotal x b with h' | h'
          · exact absurd h' hab
          · exact h'
        · exact hb x hx2

/-- `jsSort` sorts for a transitive, total order. -/
theorem jsSort_pairwise {A : Type} (le : A → A → Bool)
    (htrans : ∀ a b c, le a b = true → le b c = true → le a c = true)
    (htotal : ∀ a b, le a b = true ∨ le b a = true) :
    ∀ l : List A, (jsSort le l).Pairwise (fun x y => le x y = true)
  | [] => List.Pairwise.nil
  | a :: as =>
      insertSorted_pairwise le htrans htotal a (jsSort le as)
        (jsSort_pairwise le htrans htotal as)

/-- C6 amended: in `sorted_corrections` — the list whose order `suggest`'s
result assembly consumes — every candidate flagged `PRIORITYSUGGEST`
receives exactly the fixed bonus 1000 added to its weight (so it outranks
any non-priority candidate whose weight is within 1000), the entries are
ordered by strictly descending adjusted weight, and entries of equal
adjusted weight are ordered by ASCENDING code-unit lexicographic order (the
comparator sorts ascending with descending-string ties, and the sorted list
is then reversed). -/
theorem sortedCorrections_ordered (t : Typo) (wc : List (JsStr × Nat)) :
    (sortedCorrectionsOf t wc).Pairwise
      (fun a b => b.2 < a.2 ∨ (a.2 = b.2 ∧ (jsLt a.1 b.1 = true ∨ a.1 = b.1))) ∧
    (sortedCorrectionsOf t wc).Perm (wc.map (priorityAdjust t)) := by
  constructor
  · unfold sortedCorrectionsOf
    rw [List.pairwise_reverse]
    refine List.Pairwise.imp ?_
      (jsSort_pairwise sorterLe sorterLe_trans sorterLe_total (wc.map (priorityAdjust t)))
    intro a b h
    rw [sorterLe_iff] at h
    rcases h with h | ⟨he, hs⟩
    · exact Or.inl h
    · refine Or.inr ⟨he.symm, ?_⟩
      rcases hs with hs | hs
      · exact Or.inl hs
      · exact Or.inr hs

  · exact (List.reverse_perm _).trans (jsSort_perm sorterLe (wc.map (priorityAdjust t)))

/-- `"cb"`. -/
def wcb : JsStr := [99, 98]
/-- `"db"`. -/
def wdb : JsStr := [100, 98]
/-- `"b"`. -/
def wb : JsStr := [98]

/-- A loaded dictionary containing the codeless words `"cb"` and `"db"`,
whose public `alphabet` property has been set to `"cd"` (keeping the
edit-candidate space small). -/
def dictSuggestTie : Typo :=
  { loaded := true
    dictionaryTable := [(wcb, none), (wdb, none)]
    compoundRules := []
    flags := {}
    replacementTable := []
    memoized := []
    alphabet := [99, 100] }

/-- C6 is false as stated: suggesting for the misspelling `"b"` produces the
two candidates `"cb"` and `"db"` with EQUAL weight 2, and the returned list
orders them ascending (`"cb"` before `"db"`), not in the claimed reverse
lexicographic order. -/
theorem suggest_tie_order_counterexample :
    (suggestS dictSuggestTie wb 5).toOption.map Prod.fst = some [wcb, wdb] ∧
    (weightedOf dictSuggestTie wb).toOption.map
      (fun wc => ((wc.find? (fun p => p.1 == wcb)).map Prod.snd,
                  (wc.find? (fun p => p.1 == wdb)).map Prod.snd)) = some (some 2, some 2) ∧
    jsLt wcb wdb = true := by decide

/-! ## C8 and C10: lemmas about the suggest pipeline -/

/-- The assembly loop never grows the result beyond `limit`. -/
theorem assembleLoop_length (t : Typo) (scheme : CapScheme) :
    ∀ (l : List (JsStr × Nat)) (limit : Nat) (rv : List JsStr),
      rv.length ≤ limit → (assembleLoop t scheme l limit rv).length ≤ limit
  | [], _, _, h => h
  | (s, _) :: rest, limit, rv, h => by
      unfold assembleLoop
      by_cases hstop : limit ≤ rv.length
      · rw [if_pos hstop]
        exact h
      · rw [if_neg hstop]
        by_cases hacc : hasFlagMem t .NOSUGGEST (recase scheme s) = false ∧ recase scheme s ∉ rv
        · rw [if_pos hacc]
          exact assembleLoop_length t scheme rest limit (rv ++ [recase scheme s])
            (by simp only [List.length_append, List.length_singleton]; omega)
        · rw [if_neg hacc]
          exact assembleLoop_length t scheme rest limit rv h

/-- The assembly loop's duplicate filter keeps the result duplicate-free. -/
theorem assembleLoop_nodup (t : Typo) (scheme : CapScheme) :
    ∀ (l : List (JsStr × Nat)) (limit : Nat) (rv : List JsStr),
      rv.Nodup → (assembleLoop t scheme l limit rv).Nodup
  | [], _, _, h => h
  | (s, _) :: rest, limit, rv, h => by
      unfold assembleLoop
      by_cases hstop : limit ≤ rv.length
      · rw [if_pos hstop]
        exact h
      · rw [if_neg hstop]
        by_cases hacc : hasFlagMem t .NOSUGGEST (recase scheme s) = false ∧ recase scheme s ∉ rv
        · rw [if_pos hacc]
          refine assembleLoop_nodup t scheme rest limit (rv ++ [recase scheme s]) ?_
          simp only [List.nodup_append, List.nodup_singleton, List.disjoint_singleton]
          exact ⟨h, trivial, hacc.2⟩
        · rw [if_neg hacc]
          exact assembleLoop_nodup t scheme rest limit rv h

/-- `correct` returns at most `limit` suggestions, without duplicates. -/
theorem correctFn_ok (t : Typo) (w : JsStr) (limit : Nat) (r : List JsStr)
    (h : correctFn t w limit = .ok r) : r.length ≤ limit ∧ r.Nodup := by
  unfold correctFn at h
  cases hw : weightedOf t w with
  | error e => rw [hw] at h; cases h
  | ok wc =>
      rw [hw] at h
      have hr : assembleLoop t (capSchemeOf w) (sortedCorrectionsOf t wc) limit [] = r := by
        injection h
      rw [← hr]
      exact ⟨assembleLoop_length t (capSchemeOf w) _ limit [] (by simp),
             assembleLoop_nodup t (capSchemeOf w) _ limit [] (by simp)⟩

/-- Looking up the key just written into an association map finds the new
value (replacement case). -/
theorem find_assocReplace {V : Type} (w : JsStr) (v : V) :
    ∀ m : List (JsStr × V), m.any (fun p => p.1 == w) = true →
      (m.map (fun p => if p.1 == w then (w, v) else p)).find? (fun p => p.1 == w) =
        some (w, v)
  | [], h => by simp at h
  | p :: rest, h => by
      by_cases hp : (p.1 == w) = true
      · rw [List.map_cons, if_pos hp]
        simp [List.find?_cons]
      · rw [List.map_cons, if_neg hp]
        have hp' : (p.1 == w) = false := by
          simp only [Bool.not_eq_true] at hp
          exact hp
        rw [List.find?_cons, hp']
        exact find_assocReplace w v rest (by simpa [List.any_cons, hp'] using h)

/-- Looking up the key just appended to an association map with no prior
entry for it finds the appended value. -/
theorem find_assocAppend {V : Type} (w : JsStr) (v : V) :
    ∀ m : List (JsStr × V), m.any (fun p => p.1 == w) = false →
      (m ++ [(w, v)]).find? (fun p => p.1 == w) = some (w, v)
  | [], _ => by
      rw [List.nil_append]
      simp [List.find?_cons]
  | p :: rest, h => by
      have h' : ((p.1 == w) || rest.any (fun p => p.1 == w)) = false := by
        simpa [List.any_cons] using h
      rcases Bool.or_eq_false_iff.mp h' with ⟨h1, h2⟩
      rw [List.cons_append, List.find?_cons, h1]
      exact find_assocAppend w v rest h2

/-- Storing a memo entry makes its lookup return exactly that entry. -/
theorem memoLookup_memoSet_self (m : List (JsStr × (List JsStr × Nat)))
    (w : JsStr) (v : List JsStr × Nat) :
    memoLookup (memoSet m w v) w = some v := by
  unfold memoLookup memoSet
  by_cases h : m.any (fun p => p.1 == w) = true
  · rw [if_pos h, find_assocReplace w v m h]
    rfl
  · rw [if_neg h, find_assocAppend w v m (by
      simp only [Bool.not_eq_true] at h
      exact h)]
    rfl

/-- A successful memo lookup comes from an entry of the memo table. -/
theorem memoLookup_mem (m : List (JsStr × (List JsStr × Nat))) (w : JsStr)
    (v : List JsStr × Nat) (h : memoLookup m w = some v) : (w, v) ∈ m := by
  unfold memoLookup at h
  cases hf : m.find? (fun p => p.1 == w) with
  | none => rw [hf] at h; cases h
  | some p =>
      rw [hf] at h
      have hp : p ∈ m := List.mem_of_find?_eq_some hf
      have hpw := List.find?_some hf
      obtain ⟨p1, p2⟩ := p
      have h1 : p1 = w := by simpa using hpw
      have h2 : p2 = v := by injection h
      subst h1
      subst h2
      exact hp

/-- `suggest` without a memo entry runs the main path. -/
theorem suggestS_of_memo_none (t : Typo) (w : JsStr) (limit0 : Nat)
    (hmemo : memoLookup t.memoized w = none) :
    suggestS t w limit0 = suggestMain t w (if limit0 = 0 then 5 else limit0) := by
  unfold suggestS
  rw [hmemo]

/-- `suggest` with a memo entry either serves it or runs the main path. -/
theorem suggestS_of_memo_some (t : Typo) (w : JsStr) (limit0 : Nat)
    (sl : List JsStr × Nat) (hm : memoLookup t.memoized w = some sl) :
    suggestS t w limit0 =
      if (if limit0 = 0 then 5 else limit0) ≤ sl.2 ∨ sl.1.length < sl.2 then
        .ok (sl.1.take (if limit0 = 0 then 5 else limit0), t)
      else suggestMain t w (if limit0 = 0 then 5 else limit0) := by
  unfold suggestS
  rw [hm]

/-- On every successful path of the non-memoized part of `suggest`, the
result holds at most `limit` suggestions and no duplicates. -/
theorem suggestMain_bound (t : Typo) (w : JsStr) (limit : Nat) (r : List JsStr)
    (t1 : Typo) (hl : 1 ≤ limit) (h : suggestMain t w limit = .ok (r, t1)) :
    r.length ≤ limit ∧ r.Nodup := by
  unfold suggestMain at h
  cases hcb : checkBody t w with
  | error e => rw [hcb] at h; cases h
  | ok b =>
      rw [hcb] at h
      cases b with
      | true =>
          simp only [Except.ok.injEq, Prod.mk.injEq] at h
          obtain ⟨hr, _⟩ := h
          subst hr
          exact ⟨by simp, List.nodup_nil⟩
      | false =>
          cases hrl : replLoop t w t.replacementTable with
          | error e => rw [hrl] at h; cases h
          | ok o =>
              rw [hrl] at h
              cases o with
              | some c =>
                  simp only [Except.ok.injEq, Prod.mk.injEq] at h
                  obtain ⟨hr, _⟩ := h
                  subst hr
                  exact ⟨by simpa using hl, List.nodup_singleton c⟩
              | none =>
                  cases hcf : correctFn (alphaResolve t) w limit with
                  | error e => rw [hcf] at h; cases h
                  | ok rr =>
                      rw [hcf] at h
                      simp only [Except.ok.injEq, Prod.mk.injEq] at h
                      obtain ⟨hr, _⟩ := h
                      rw [← hr]
                      exact correctFn_ok (alphaResolve t) w limit rr hcf

/-! ## C8 -/

/-- C8: for a dictionary state holding no memo entry for `w`, the first call
`suggest(w,k)` computes its result fresh — this IS the freshly computed
result for `(w,k)` on that dictionary state — and a second call
`suggest(w,k)` on the state the first call returns (served from the memo on
the memoizing path, recomputed identically on the non-memoizing paths)
returns exactly the same list and leaves the state unchanged. -/
theorem suggest_memo_matches_fresh (t : Typo) (w : JsStr) (k : Nat)
    (r : List JsStr) (t1 : Typo)
    (hmemo : memoLookup t.memoized w = none)
    (h : suggestS t w k = .ok (r, t1)) :
    suggestS t1 w k = .ok (r, t1) := by
  rw [suggestS_of_memo_none t w k hmemo] at h
  unfold suggestMain at h
  cases hcb : checkBody t w with
  | error e => rw [hcb] at h; cases h
  | ok b =>
      simp only [hcb] at h
      cases b with
      | true =>
          simp only [Except.ok.injEq, Prod.mk.injEq] at h
          obtain ⟨hr, ht⟩ := h
          subst hr
          subst ht
          rw [suggestS_of_memo_none t w k hmemo]
          unfold suggestMain
          rw [hcb]
      | false =>
          cases hrl : replLoop t w t.replacementTable with
          | error e => simp only [hrl] at h; cases h
          | ok o =>
              simp only [hrl] at h
              cases o with
              | some c =>
                  simp only [Except.ok.injEq, Prod.mk.injEq] at h
                  obtain ⟨hr, ht⟩ := h
                  subst hr
                  subst ht
                  rw [suggestS_of_memo_none t w k hmemo]
                  unfold suggestMain
                  rw [hcb, hrl]
              | none =>
                  cases hcf : correctFn (alphaResolve t) w (if k = 0 then 5 else k) with
                  | error e => simp only [hcf] at h; cases h
                  | ok rr =>
                      simp only [hcf, Except.ok.injEq, Prod.mk.injEq] at h
                      obtain ⟨hr, ht⟩ := h
                      subst hr
                      rw [← ht]
                      have hmm : memoLookup
                          ({ alphaResolve t with
                             memoized := memoSet (alphaResolve t).memoized w
                               (rr, if k = 0 then 5 else k) } : Typo).memoized w =
                          some (rr, if k = 0 then 5 else k) :=
                        memoLookup_memoSet_self (alphaResolve t).memoized w _
                      rw [suggestS_of_memo_some _ w k _ hmm]
                      simp only [le_refl, true_or, if_true]
                      rw [List.take_of_length_le (correctFn_ok (alphaResolve t) w _ rr hcf).1]

/-- Witness for C8 at `dictAB` with `w = "ab"` and `k = 1` (the word is
correct, so both calls return the empty suggestion list on an unchanged
state). -/
theorem suggest_memo_matches_fresh_witness :
    suggestS dictAB wAB 1 = .ok ([], dictAB) :=
  suggest_memo_matches_fresh dictAB wAB 1 [] dictAB (by decide) (by decide)

/-! ## C10 -/

/-- C10: for a loaded dictionary whose memo holds only duplicate-free
suggestion lists (as every list `suggest` stores is), a successful call
`suggest(w,k)` with positive `k` returns at most `k` suggestions with no
duplicates — on the memoized path, the replacement-table short-circuit path,
and the fresh-computation path alike. -/
theorem suggest_bounded_nodup (t : Typo) (w : JsStr) (k : Nat)
    (r : List JsStr) (t1 : Typo)
    (hwf : ∀ e ∈ t.memoized, e.2.1.Nodup)
    (hk : 1 ≤ k)
    (h : suggestS t w k = .ok (r, t1)) :
    r.length ≤ k ∧ r.Nodup := by
  have hlim : (if k = 0 then 5 else k) = k := by
    rw [if_neg (by omega)]
  cases hm : memoLookup t.memoized w with
  | none =>
      rw [suggestS_of_memo_none t w k hm, hlim] at h
      exact suggestMain_bound t w k r t1 hk h
  | some sl =>
      rw [suggestS_of_memo_some t w k sl hm, hlim] at h
      by_cases hc : k ≤ sl.2 ∨ sl.1.length < sl.2
      · rw [if_pos hc] at h
        simp only [Except.ok.injEq, Prod.mk.injEq] at h
        obtain ⟨hr, _⟩ := h
        have hnd : sl.1.Nodup := hwf (w, sl) (memoLookup_mem t.memoized w sl hm)
        rw [← hr]
        constructor
        · rw [List.length_take]
          omega
        · exact (List.take_sublist k sl.1).nodup hnd
      · rw [if_neg hc] at h
        exact suggestMain_bound t w k r t1 hk h

/-- Witness for C10 at `dictAB` with `w = "ab"` and `k = 1`. -/
theorem suggest_bounded_nodup_witness :
    ∃ r t', suggestS dictAB wAB 1 = .ok (r, t') ∧ r.length ≤ 1 ∧ r.Nodup :=
  ⟨[], dictAB, by decide,
    suggest_bounded_nodup dictAB wAB 1 [] dictAB
      (by intro e he; simp [dictAB] at he) (by decide) (by decide)⟩

/-! ## C9 -/

/-- One public cache operation (`get` / `set`; `has`/`add` are `Map.has` and
a `set` with a trivial value). -/
inductive LRUOp (V : Type) where
  | opGet (k : JsStr)
  | opSet (k : JsStr) (v : V)

/-- Apply one cache operation to the cache state (a `get`'s returned value
is discarded, its reordering of the access order kept). -/
def LRU.step {V : Type} (c : LRU V) : LRUOp V → LRU V
  | .opGet k => (c.get k).2
  | .opSet k v => c.set k v

/-- `get` never changes the number of entries. -/
theorem lru_get_length {V : Type} (c : LRU V) (k : JsStr) :
    ((c.get k).2).entries.length = c.entries.length := by
  unfold LRU.get
  cases hf : c.entries.find? (fun p => p.1 == k) with
  | none => rfl
  | some p =>
      have hmem : p ∈ c.entries := List.mem_of_find?_eq_some hf
      have hp0 := List.find?_some hf
      have hany : c.entries.any (fun q => q.1 == k) = true :=
        List.any_eq_true.mpr ⟨p, hmem, hp0⟩
      have h1 : 1 ≤ c.entries.length := List.length_pos.mpr (List.ne_nil_of_mem hmem)
      simp only [List.length_append, List.length_singleton, List.length_eraseP, hany,
        if_true]
      omega

/-- `set` keeps the entry count within `maxSize`, provided it was within
before. -/
theorem lru_set_length {V : Type} (c : LRU V) (k : JsStr) (v : V)
    (h : c.entries.length ≤ c.maxSize) :
    (c.set k v).entries.length ≤ c.maxSize := by
  simp only [LRU.set]
  have he : (c.entries.eraseP (fun q => q.1 == k)).length ≤ c.entries.length :=
    List.length_eraseP_le c.entries
  by_cases hc :
      c.maxSize < ((c.entries.eraseP (fun q => q.1 == k)) ++ [(k, v)]).length
  · rw [if_pos hc]
    simp only [List.length_drop, List.length_append, List.length_singleton] at hc ⊢
    omega
  · rw [if_neg hc]
    simp only [List.length_append, List.length_singleton] at hc ⊢
    omega

/-- `step` changes neither the capacity. -/
theorem lru_step_maxSize {V : Type} (c : LRU V) (op : LRUOp V) :
    (c.step op).maxSize = c.maxSize := by
  cases op with
  | opGet k =>
      show ((c.get k).2).maxSize = c.maxSize
      unfold LRU.get
      cases hf : c.entries.find? (fun p => p.1 == k) with
      | none => rfl
      | some p => rfl
  | opSet k v => rfl

/-- `step` keeps the entry count within the capacity. -/
theorem lru_step_length {V : Type} (c : LRU V) (op : LRUOp V)
    (h : c.entries.length ≤ c.maxSize) :
    (c.step op).entries.length ≤ (c.step op).maxSize := by
  rw [lru_step_maxSize]
  cases op with
  | opGet k =>
      show ((c.get k).2).entries.length ≤ c.maxSize
      rw [lru_get_length]
      exact h
  | opSet k v => exact lru_set_length c k v h

/-- The capacity invariant holds after every sequence of operations. -/
theorem lru_foldl_length {V : Type} :
    ∀ (ops : List (LRUOp V)) (c : LRU V), c.entries.length ≤ c.maxSize →
      (ops.foldl LRU.step c).entries.length ≤ c.maxSize
  | [], _, h => h
  | op :: rest, c, h => by
      have hrec := lru_foldl_length rest (c.step op) (lru_step_length c op h)
      rw [lru_step_maxSize] at hrec
      exact hrec

/-- C9: (1) after any sequence of `get`/`set` operations from a state within
capacity, the partition cache never holds more entries than its configured
capacity; (2) a `set` of a fresh key on a full cache appends it and evicts
exactly the first entry of the map order — the least-recently-used one,
since `get` and `set` both move their key to the end; (3) `_loadPartition`
on a prefix absent from the cache returns the partition read from the
persisted directory — never a stale cached value. -/
theorem lru_partition_cache :
    (∀ (V : Type) (ops : List (LRUOp V)) (c : LRU V),
      c.entries.length ≤ c.maxSize →
      (ops.foldl LRU.step c).entries.length ≤ c.maxSize) ∧
    (∀ (V : Type) (c : LRU V) (k : JsStr) (v : V),
      0 < c.maxSize → c.entries.length = c.maxSize →
      c.entries.any (fun p => p.1 == k) = false →
      (c.set k v).entries = c.entries.drop 1 ++ [(k, v)]) ∧
    (∀ (t : TypoPre) (k : JsStr) (ws : List WEntry),
      t.partitionCache.has k = false →
      partitionsLookup t.partitions k = some ws →
      (loadPartition t k).1 = ws) := by
  refine ⟨fun V ops c h => lru_foldl_length ops c h, ?_, ?_⟩
  · intro V c k v hcap hfull hfresh
    unfold LRU.set
    have hnone : c.entries.eraseP (fun q => q.1 == k) = c.entries := by
      refine List.eraseP_of_forall_not ?_
      intro a ha hpa
      have : c.entries.any (fun p => p.1 == k) = true := List.any_eq_true.mpr ⟨a, ha, hpa⟩
      rw [this] at hfresh
      cases hfresh
    rw [hnone]
    dsimp only
    have hlen : c.maxSize < (c.entries ++ [(k, v)]).length := by
      simp only [List.length_append, List.length_singleton]
      omega
    rw [if_pos hlen]
    rw [List.drop_append_of_le_length (by omega)]
  · intro t k ws hmiss hdisk
    unfold loadPartition
    rw [hmiss]
    simp only [Bool.false_eq_true, if_false]
    rw [hdisk]

/-- Witness for C9: a capacity-2 cache filled with `"aaa"`, `"bbb"` stays
within capacity after a third `set`, that `set` of `"ab"` evicts exactly the
oldest entry, and loading the uncached partition `"ab"` of the exported
`dictAB` returns the persisted partition body. -/
theorem lru_partition_cache_witness :
    (((([LRUOp.opSet wAAA 1, LRUOp.opSet wBBB 2, LRUOp.opSet wAB 3] :
        List (LRUOp Nat)).foldl LRU.step (LRU.empty Nat 2)).entries.length ≤ 2) ∧
    ((((LRU.empty Nat 2).set wAAA 1).set wBBB 2).set wAB 3).entries =
      ((((LRU.empty Nat 2).set wAAA 1).set wBBB 2).entries.drop 1 ++ [(wAB, 3)])) ∧
    (loadPartition (exportPre dictAB) (getPartitionKey wAB)).1 = [(wAB, none)] :=
  ⟨⟨lru_partition_cache.1 Nat _ (LRU.empty Nat 2) (by decide),
    lru_partition_cache.2.1 Nat (((LRU.empty Nat 2).set wAAA 1).set wBBB 2) wAB 3
      (by decide) (by decide) (by decide)⟩,
   lru_partition_cache.2.2 (exportPre dictAB) (getPartitionKey wAB) [(wAB, none)]
     (by decide) (by decide)⟩

end TypoJs
